import Mathlib

/-!
Shallow embedding of the habit-tracker backend
(`src/habit_tracker_backend/app.py`): habit catalog, completion ledger,
and the three core operations — reading a day's completions
(`get_habits`), saving a day's completions (`save_habits`), and period
aggregation (`progress`) — together with the request validation that
guards the write and aggregation routes.

Dates are represented by their serial day number (an `Int`); `parseDate`
mirrors `parse_date` / `datetime.strptime(date_str, "%Y-%m-%d")` and
`Date.toDays` converts a calendar date to its day number, so that the
`timedelta` arithmetic of the source becomes integer arithmetic.
JSON/Python values reaching the completions mapping are modelled by
`PyVal` with Python truthiness, and the mapping itself (a Python dict
whose keys may be strings or ints) by an association list over `PyKey`.
-/

namespace HabitTracker

/-- A Python/JSON value as it can appear in the `completions` mapping;
`truthy` mirrors Python truthiness (`bool(v)`). -/
inductive PyVal where
  | vNone
  | vBool (b : Bool)
  | vInt (n : Int)
  | vStr (s : String)
deriving DecidableEq, Repr

/-- Python truthiness of a value: `bool(v)`. -/
def truthy : PyVal → Bool
  | .vNone => false
  | .vBool b => b
  | .vInt n => n != 0
  | .vStr s => s != ""

/-- A Python dict key: either a native int or a string. -/
inductive PyKey where
  | kInt (n : Int)
  | kStr (s : String)
deriving DecidableEq, Repr

/-- The `completions` mapping: a Python dict from keys to values. -/
abbrev Completions := List (PyKey × PyVal)

/-- Python `m.get(k)` on a dict: the value stored under `k`,
defaulting to `None`. -/
def dictGet (m : Completions) (k : PyKey) : PyVal :=
  match m.find? (fun p => p.1 == k) with
  | some p => p.2
  | none => .vNone

/-- Python `a or b`: `a` when truthy, otherwise `b`. -/
def pyOr (a b : PyVal) : PyVal :=
  if truthy a then a else b

/-- The expression `bool(completions.get(str(habit.id)) or completions.get(habit.id))`
from `save_habits`: the desired completed state for the habit. -/
def desiredCompleted (m : Completions) (hid : Nat) : Bool :=
  truthy (pyOr (dictGet m (.kStr (toString hid))) (dictGet m (.kInt (hid : Int))))

/-- A row of the `habits` table. -/
structure Habit where
  id : Nat
  name : String
deriving DecidableEq, Repr

/-- A row of the `habit_entries` table (the completion ledger);
`date` is the serial day number. -/
structure HabitEntry where
  user_id : Nat
  habit_id : Nat
  date : Int
  completed : Bool
deriving DecidableEq, Repr

/-- The persistent store: the seeded habit catalog and the ledger rows. -/
structure DB where
  habits : List Habit
  entries : List HabitEntry
deriving DecidableEq, Repr

/-- The (user_id, habit_id, date) key of a ledger row, the subject of the
`user_habit_date_unique` constraint. -/
def entryKey (e : HabitEntry) : Nat × Nat × Int :=
  (e.user_id, e.habit_id, e.date)

/-- The ledger satisfies the `user_habit_date_unique` constraint:
no two rows share a (user_id, habit_id, date) triple. -/
def UniqLedger (db : DB) : Prop :=
  (db.entries.map entryKey).Nodup

instance (db : DB) : Decidable (UniqLedger db) := by
  unfold UniqLedger
  infer_instance

/-- The default habit names seeded by `seed_habits`. -/
def defaultHabitNames : List String :=
  ["Wake early", "Hydrate", "Read", "Exercise", "Pray", "Plan day",
   "Sleep Well", "Learn", "Eat Healthy", "Limit screentime", "Journal",
   "Gratitude", "Clean room", "Family time", "Walk"]

/-- The catalog produced by `seed_habits` on an empty table: the default
names with autoincrement ids 1, 2, …. -/
def seededHabits : List Habit :=
  (List.range defaultHabitNames.length).zipWith
    (fun i name => ⟨i + 1, name⟩) defaultHabitNames

/-- The query `Habit.query.order_by(Habit.id).all()`: the catalog sorted by id. -/
def sortHabits (habits : List Habit) : List Habit :=
  habits.mergeSort (fun a b => a.id ≤ b.id)

/-- The entry the dict comprehension
`{entry.habit_id: entry for entry in HabitEntry.query.filter_by(user_id=..., date=...)}`
associates to `hid`: among rows matching user and date, later rows
overwrite earlier ones, so the last match wins. -/
def lastEntryFor (entries : List HabitEntry) (uid : Nat) (d : Int) (hid : Nat) :
    Option HabitEntry :=
  (entries.filter fun e =>
    e.user_id == uid && e.date == d && e.habit_id == hid).getLast?

/-- One record of the GET /habits response. -/
structure HabitStatus where
  id : Nat
  name : String
  completed : Bool
deriving DecidableEq, Repr

/-- Core of `get_habits`: for each catalog habit (sorted by id), report
the completion status stored for (user, date), defaulting to false. -/
def get_habits (db : DB) (uid : Nat) (d : Int) : List HabitStatus :=
  (sortHabits db.habits).map fun h =>
    { id := h.id
      name := h.name
      completed :=
        match lastEntryFor db.entries uid d h.id with
        | some e => e.completed
        | none => false }

/-- One step of the `save_habits` loop body for a single habit:
`HabitEntry.query.filter_by(user_id=..., habit_id=..., date=...).first()`
finds the first matching row; if found its `completed` flag is set,
otherwise a fresh row is appended (`db.session.add`). -/
def upsertEntry (entries : List HabitEntry) (uid hid : Nat) (d : Int) (c : Bool) :
    List HabitEntry :=
  match entries with
  | [] => [⟨uid, hid, d, c⟩]
  | e :: rest =>
    if e.user_id = uid ∧ e.habit_id = hid ∧ e.date = d then
      { e with completed := c } :: rest
    else
      e :: upsertEntry rest uid hid d c

/-- The `for habit in habits` loop of `save_habits`, threading the ledger
and the `completed_count` accumulator. -/
def saveLoop (uid : Nat) (d : Int) (m : Completions)
    (habits : List Habit) (acc : List HabitEntry × Nat) : List HabitEntry × Nat :=
  habits.foldl
    (fun acc h =>
      let c := desiredCompleted m h.id
      (upsertEntry acc.1 uid h.id d c, acc.2 + if c then 1 else 0))
    acc

/-- Core of `save_habits` after validation: upsert an entry per catalog
habit and return the new store with the completion percentage
`completed_count / len(habits) * 100` (0 for an empty catalog). -/
def saveHabitsCore (db : DB) (uid : Nat) (d : Int) (m : Completions) : DB × ℚ :=
  let habits := sortHabits db.habits
  let res := saveLoop uid d m habits (db.entries, 0)
  (⟨db.habits, res.1⟩,
   if habits.isEmpty then 0 else (res.2 : ℚ) / (habits.length : ℚ) * 100)

/-- A calendar date as produced by `parse_date`. -/
structure Date where
  year : Nat
  month : Nat
  day : Nat
deriving DecidableEq, Repr

/-- Gregorian leap-year test, as used by `datetime.date`. -/
def isLeapYear (y : Nat) : Bool :=
  y % 4 == 0 && (y % 100 != 0 || y % 400 == 0)

/-- Number of days in month `m` of year `y`. -/
def daysInMonth (y m : Nat) : Nat :=
  if m = 2 then (if isLeapYear y then 29 else 28)
  else if m = 4 ∨ m = 6 ∨ m = 9 ∨ m = 11 then 30
  else 31

/-- The `parse_date` helper:
`datetime.strptime(date_str, "%Y-%m-%d").date()`, `none` when a
`ValueError` is raised. CPython strptime matches the year as exactly
four digits and month/day as one or two digits, requires the whole
string to be consumed, and the `date` constructor then checks
`1 <= year`, `1 <= month <= 12` and `1 <= day <= days_in_month`. -/
def parseDate (s : String) : Option Date :=
  match s.splitOn "-" with
  | [ys, ms, ds] =>
    match ys.toNat?, ms.toNat?, ds.toNat? with
    | some y, some m, some d =>
      if ys.length = 4 ∧ 1 ≤ y ∧
         ms.length ≤ 2 ∧ 1 ≤ m ∧ m ≤ 12 ∧
         ds.length ≤ 2 ∧ 1 ≤ d ∧ d ≤ daysInMonth y m then
        some ⟨y, m, d⟩
      else none
    | _, _, _ => none
  | _ => none

/-- Days in full years before year `y` of the proleptic Gregorian
calendar (year 1 is the first). -/
def daysBeforeYear (y : Nat) : Nat :=
  365 * (y - 1) + (y - 1) / 4 - (y - 1) / 100 + (y - 1) / 400

/-- Days in the months of year `y` strictly before month `m`. -/
def daysBeforeMonth (y m : Nat) : Nat :=
  ((List.range (m - 1)).map (fun i => daysInMonth y (i + 1))).sum

/-- The serial day number of a date (`date.toordinal()` in Python);
`timedelta` day arithmetic and date comparison in the source coincide
with integer arithmetic on this number. -/
def Date.toDays (dt : Date) : Int :=
  ((daysBeforeYear dt.year + daysBeforeMonth dt.year dt.month + dt.day : Nat) : Int)

/-- The request body of POST /habits as it reaches `save_habits`:
`data.get("date")` and `data.get("completions")`, each possibly absent
(`completions` is `none` also when the value is not a dict). -/
structure SaveReq where
  dateStr : Option String
  completions : Option Completions

/-- The `save_habits` route handler: validate the payload, parse the
date, then run the upsert loop. Returns the response (percentage or
client error) together with the resulting store. -/
def save_habits (db : DB) (uid : Nat) (req : SaveReq) : Except String ℚ × DB :=
  match req.dateStr, req.completions with
  | none, _ => (.error "Invalid payload. date and completions are required.", db)
  | some _, none => (.error "Invalid payload. date and completions are required.", db)
  | some s, some m =>
    if s = "" then (.error "Invalid payload. date and completions are required.", db)
    else
      match parseDate s with
      | none => (.error "Date must be in YYYY-MM-DD format", db)
      | some dt =>
        let res := saveHabitsCore db uid dt.toDays m
        (.ok res.2, res.1)

/-- The query parameters of GET /progress as they reach `progress`. -/
structure ProgressReq where
  period : Option String
  endDateStr : Option String

/-- One per-habit record of the GET /progress response. -/
structure Stat where
  id : Nat
  name : String
  completed_days : Nat
  total_days : Nat
  percentage : ℚ
deriving DecidableEq, Repr

/-- The full GET /progress response. -/
structure ProgressResult where
  start_date : Int
  end_date : Int
  period : String
  habits : List Stat
deriving DecidableEq, Repr

/-- The check `entries_map.get(habit.id)` of the `progress` day loop:
whether the ledger records (user, habit, day) as completed. -/
def dayCompleted (entries : List HabitEntry) (uid hid : Nat) (d : Int) : Bool :=
  match lastEntryFor entries uid d hid with
  | some e => e.completed
  | none => false

/-- The days visited by `while current_date <= end_date`, ascending. -/
def dateRange (s e : Int) : List Int :=
  (List.range (e + 1 - s).toNat).map (fun (i : Nat) => s + (i : Int))

/-- The `habit_stats` map right after initialization: one zeroed record
per habit, in catalog (id) order. -/
def initStats (habits : List Habit) : List Stat :=
  habits.map fun h => ⟨h.id, h.name, 0, 0, 0⟩

/-- One iteration of the `progress` day loop: every habit gains a total
day, and a completed day when the ledger records it as completed. -/
def dayStep (entries : List HabitEntry) (uid : Nat)
    (stats : List Stat) (d : Int) : List Stat :=
  stats.map fun st =>
    { st with
      total_days := st.total_days + 1
      completed_days :=
        st.completed_days + (if dayCompleted entries uid st.id d then 1 else 0) }

/-- The whole `progress` day loop over the window `[s, e]`. -/
def progressLoop (db : DB) (uid : Nat) (s e : Int) : List Stat :=
  (dateRange s e).foldl (dayStep db.entries uid) (initStats (sortHabits db.habits))

/-- Python `round(x, 2)`: round to two decimal places (ties do not
occur at the values this program produces). -/
def round2 (q : ℚ) : ℚ :=
  ((round (q * 100) : ℤ) : ℚ) / 100

/-- The percentage pass at the end of `progress`. -/
def finalizeStats (stats : List Stat) : List Stat :=
  stats.map fun st =>
    { st with
      percentage :=
        if st.total_days > 0 then
          round2 ((st.completed_days : ℚ) / (st.total_days : ℚ) * 100)
        else 0 }

/-- Window resolution and aggregation of `progress`, after the end date
is known: weekly and monthly windows, any other period rejected. -/
def progressWindow (db : DB) (uid : Nat) (period : String) (endD : Int) :
    Except String ProgressResult :=
  if period = "weekly" then
    .ok ⟨endD - 6, endD, period, finalizeStats (progressLoop db uid (endD - 6) endD)⟩
  else if period = "monthly" then
    .ok ⟨endD - 29, endD, period, finalizeStats (progressLoop db uid (endD - 29) endD)⟩
  else
    .error "Period must be weekly or monthly."

/-- The `progress` route handler: default and lowercase the period,
resolve the end date (today when absent or empty), then aggregate.
The handler never writes to the store. -/
def progress (db : DB) (uid : Nat) (req : ProgressReq) (today : Int) :
    Except String ProgressResult :=
  let period := (req.period.getD "weekly").toLower
  match req.endDateStr with
  | some s =>
    if s = "" then progressWindow db uid period today
    else
      match parseDate s with
      | none => .error "Date must be in YYYY-MM-DD format"
      | some dt => progressWindow db uid period dt.toDays
  | none => progressWindow db uid period today

/-- A POST /habits payload that `save_habits` rejects as invalid:
missing or empty date, missing completions dict, or unparseable date. -/
def saveReqInvalid (req : SaveReq) : Bool :=
  match req.dateStr, req.completions with
  | none, _ => true
  | some _, none => true
  | some s, some _ => s == "" || (parseDate s).isNone

/-- A GET /progress request that `progress` rejects as invalid: a
present, nonempty, unparseable end date, or a period other than
weekly/monthly. -/
def progressReqInvalid (req : ProgressReq) : Bool :=
  let period := (req.period.getD "weekly").toLower
  let badPeriod := period != "weekly" && period != "monthly"
  match req.endDateStr with
  | some s => (s != "" && (parseDate s).isNone) || badPeriod
  | none => badPeriod

/-! ### Basic lemmas about the save upsert step -/

lemma entryKey_eq_iff (e : HabitEntry) (uid hid : Nat) (d : Int) :
    entryKey e = (uid, hid, d) ↔ e.user_id = uid ∧ e.habit_id = hid ∧ e.date = d := by
  simp [entryKey, Prod.ext_iff]

lemma upsertEntry_map_key (l : List HabitEntry) (uid hid : Nat) (d : Int) (c : Bool) :
    (upsertEntry l uid hid d c).map entryKey =
      if (uid, hid, d) ∈ l.map entryKey then l.map entryKey
      else l.map entryKey ++ [(uid, hid, d)] := by
  induction l with
  | nil => simp [upsertEntry, entryKey]
  | cons e rest ih =>
    by_cases h : e.user_id = uid ∧ e.habit_id = hid ∧ e.date = d
    · have hk : entryKey e = (uid, hid, d) := (entryKey_eq_iff e uid hid d).2 h
      have hk2 : entryKey { e with completed := c } = entryKey e := rfl
      simp only [upsertEntry, if_pos h, List.map_cons, hk2, hk]
      rw [if_pos (List.mem_cons_self _ _)]
    · have hk : entryKey e ≠ (uid, hid, d) := fun hc => h ((entryKey_eq_iff e uid hid d).1 hc)
      have hk2 : ¬((uid, hid, d) = entryKey e) := fun hc => hk hc.symm
      simp only [upsertEntry, if_neg h, List.map_cons, ih, List.mem_cons, hk2, false_or]
      by_cases hm : (uid, hid, d) ∈ rest.map entryKey
      · simp [hm]
      · simp [hm]

lemma saveLoop_nil (uid : Nat) (d : Int) (m : Completions) (acc : List HabitEntry × Nat) :
    saveLoop uid d m [] acc = acc := rfl

lemma saveLoop_cons (uid : Nat) (d : Int) (m : Completions) (h : Habit) (hs : List Habit)
    (acc : List HabitEntry × Nat) :
    saveLoop uid d m (h :: hs) acc =
      saveLoop uid d m hs
        (upsertEntry acc.1 uid h.id d (desiredCompleted m h.id),
         acc.2 + if desiredCompleted m h.id then 1 else 0) := rfl

lemma saveLoop_entries_nodup (uid : Nat) (d : Int) (m : Completions)
    (habits : List Habit) (l : List HabitEntry) (n : Nat)
    (h : (l.map entryKey).Nodup) :
    (((saveLoop uid d m habits (l, n)).1).map entryKey).Nodup := by
  induction habits generalizing l n with
  | nil => simpa [saveLoop_nil] using h
  | cons hb hs ih =>
    rw [saveLoop_cons]
    apply ih
    rw [upsertEntry_map_key]
    split_ifs with hmem
    · exact h
    · simp [List.nodup_append, h, hmem]

lemma saveHabitsCore_fst (db : DB) (uid : Nat) (d : Int) (m : Completions) :
    (saveHabitsCore db uid d m).1 =
      ⟨db.habits, (saveLoop uid d m (sortHabits db.habits) (db.entries, 0)).1⟩ := rfl

lemma saveHabitsCore_snd (db : DB) (uid : Nat) (d : Int) (m : Completions) :
    (saveHabitsCore db uid d m).2 =
      (if (sortHabits db.habits).isEmpty then 0
       else (((saveLoop uid d m (sortHabits db.habits) (db.entries, 0)).2 : ℚ)) /
         (((sortHabits db.habits).length : ℚ)) * 100) := rfl

/-- A small concrete store used to instantiate the hypotheses of the
claim theorems. -/
def sampleDB : DB := ⟨[⟨1, "Read"⟩, ⟨2, "Walk"⟩], [⟨1, 1, 100, true⟩]⟩

/-- A small concrete completions mapping (string key for habit 1,
native int key for habit 2). -/
def sampleComps : Completions := [(.kStr "1", .vBool true), (.kInt 2, .vInt 1)]

/-! ### C1 -/

/-- C1: saving preserves the ledger's central uniqueness invariant —
if the store holds at most one entry per (user_id, habit_id, date)
triple before a save, it still does afterwards: each catalog habit's
entry is updated in place when present and inserted exactly once when
absent, never duplicated. -/
theorem save_preserves_ledger_uniqueness (db : DB) (uid : Nat) (d : Int) (m : Completions)
    (h : UniqLedger db) : UniqLedger (saveHabitsCore db uid d m).1 := by
  rw [saveHabitsCore_fst]
  exact saveLoop_entries_nodup uid d m (sortHabits db.habits) db.entries 0 h

theorem save_preserves_ledger_uniqueness_witness :
    UniqLedger sampleDB ∧ UniqLedger (saveHabitsCore sampleDB 1 100 sampleComps).1 :=
  ⟨by decide, save_preserves_ledger_uniqueness sampleDB 1 100 sampleComps (by decide)⟩

/-! ### Lemmas about reading the ledger -/

lemma lastEntryFor_mem {entries : List HabitEntry} {uid : Nat} {d : Int} {hid : Nat}
    {e : HabitEntry} (h : lastEntryFor entries uid d hid = some e) :
    e ∈ entries ∧ e.user_id = uid ∧ e.date = d ∧ e.habit_id = hid := by
  unfold lastEntryFor at h
  have hm := List.mem_of_mem_getLast? h
  simpa [List.mem_filter, and_assoc] using hm

lemma lastEntryFor_eq_some_of_mem {entries : List HabitEntry}
    (hU : (entries.map entryKey).Nodup) {e : HabitEntry} {uid : Nat} {d : Int} {hid : Nat}
    (he : e ∈ entries) (h1 : e.user_id = uid) (h2 : e.date = d) (h3 : e.habit_id = hid) :
    lastEntryFor entries uid d hid = some e := by
  have hef : e ∈ entries.filter
      (fun e => e.user_id == uid && e.date == d && e.habit_id == hid) := by
    simp [List.mem_filter, he, h1, h2, h3]
  unfold lastEntryFor
  cases hlast : (entries.filter
      (fun e => e.user_id == uid && e.date == d && e.habit_id == hid)).getLast? with
  | none =>
    rw [List.getLast?_eq_none_iff] at hlast
    rw [hlast] at hef
    cases hef
  | some e2 =>
    have he2f := List.mem_of_mem_getLast? hlast
    have he2 : e2 ∈ entries ∧ e2.user_id = uid ∧ e2.date = d ∧ e2.habit_id = hid := by
      simpa [List.mem_filter, and_assoc] using he2f
    have hkey : entryKey e2 = entryKey e := by
      simp [entryKey, he2.2.1, he2.2.2.1, he2.2.2.2, h1, h2, h3]
    have : e2 = e := List.inj_on_of_nodup_map hU he2.1 he hkey
    rw [this]

lemma dayCompleted_true_iff {entries : List HabitEntry}
    (hU : (entries.map entryKey).Nodup) (uid hid : Nat) (d : Int) :
    dayCompleted entries uid hid d = true ↔
      ∃ e ∈ entries, e.user_id = uid ∧ e.habit_id = hid ∧ e.date = d ∧ e.completed = true := by
  constructor
  · intro h
    unfold dayCompleted at h
    cases hle : lastEntryFor entries uid d hid with
    | none => rw [hle] at h; cases h
    | some e =>
      rw [hle] at h
      have hm := lastEntryFor_mem hle
      exact ⟨e, hm.1, hm.2.1, hm.2.2.2, hm.2.2.1, h⟩
  · rintro ⟨e, he, h1, h2, h3, h4⟩
    unfold dayCompleted
    rw [lastEntryFor_eq_some_of_mem hU he h1 h3 h2]
    exact h4

lemma get_habits_eq_map (db : DB) (uid : Nat) (d : Int) :
    get_habits db uid d = (sortHabits db.habits).map
      (fun h => ⟨h.id, h.name, dayCompleted db.entries uid h.id d⟩) := rfl

lemma sortHabits_perm (habits : List Habit) : (sortHabits habits).Perm habits :=
  List.mergeSort_perm habits _

lemma sortHabits_length (habits : List Habit) :
    (sortHabits habits).length = habits.length :=
  (sortHabits_perm habits).length_eq

lemma sortHabits_sorted (habits : List Habit) :
    (sortHabits habits).Pairwise (fun a b => a.id ≤ b.id) := by
  have h := @List.sorted_mergeSort Habit (fun (a b : Habit) => a.id ≤ b.id) ?_ ?_ habits
  · exact h.imp (by intro a b hab; simpa using hab)
  · intro a b c hab hbc
    simp only [decide_eq_true_eq] at *
    omega
  · intro a b
    simp only [Bool.or_eq_true, decide_eq_true_eq]
    omega

/-! ### C2 -/

/-- C2: reading a user's day returns one record per catalog habit
(output length equals catalog size), ordered by habit id ascending, and
a habit is reported completed exactly when the ledger holds a
completed entry for (user, habit, date); habits without an entry read
as not completed. -/
theorem read_is_total_sorted_with_default (db : DB) (uid : Nat) (d : Int)
    (hU : UniqLedger db) :
    (get_habits db uid d).length = db.habits.length ∧
    ((get_habits db uid d).map HabitStatus.id).Pairwise (fun a b => a ≤ b) ∧
    ∀ st ∈ get_habits db uid d,
      (st.completed = true ↔ ∃ e ∈ db.entries,
        e.user_id = uid ∧ e.habit_id = st.id ∧ e.date = d ∧ e.completed = true) := by
  refine ⟨?_, ?_, ?_⟩
  · rw [get_habits_eq_map, List.length_map, sortHabits_length]
  · rw [get_habits_eq_map, List.map_map]
    exact (sortHabits_sorted db.habits).map _ (fun a b hab => hab)
  · intro st hst
    rw [get_habits_eq_map, List.mem_map] at hst
    obtain ⟨h, _, rfl⟩ := hst
    exact dayCompleted_true_iff hU uid h.id d

theorem read_is_total_sorted_with_default_witness :
    UniqLedger sampleDB ∧
    ((get_habits sampleDB 1 100).length = sampleDB.habits.length ∧
     ((get_habits sampleDB 1 100).map HabitStatus.id).Pairwise (fun a b => a ≤ b) ∧
     ∀ st ∈ get_habits sampleDB 1 100,
       (st.completed = true ↔ ∃ e ∈ sampleDB.entries,
         e.user_id = 1 ∧ e.habit_id = st.id ∧ e.date = 100 ∧ e.completed = true)) :=
  ⟨by decide, read_is_total_sorted_with_default sampleDB 1 100 (by decide)⟩

/-! ### How the upsert step affects subsequent reads -/

lemma matchPred_iff (e : HabitEntry) (uid : Nat) (d : Int) (hid : Nat) :
    (e.user_id == uid && e.date == d && e.habit_id == hid) = true ↔
      e.user_id = uid ∧ e.date = d ∧ e.habit_id = hid := by
  simp [Bool.and_eq_true, and_assoc]

lemma matchPred_false (e : HabitEntry) (uid : Nat) (d : Int) (hid : Nat)
    (h : ¬(e.user_id = uid ∧ e.habit_id = hid ∧ e.date = d)) :
    (e.user_id == uid && e.date == d && e.habit_id == hid) = false := by
  rw [Bool.eq_false_iff]
  intro hc
  rw [matchPred_iff] at hc
  exact h ⟨hc.1, hc.2.2, hc.2.1⟩

lemma upsertEntry_nodup (l : List HabitEntry) (uid hid : Nat) (d : Int) (c : Bool)
    (hU : (l.map entryKey).Nodup) :
    ((upsertEntry l uid hid d c).map entryKey).Nodup := by
  rw [upsertEntry_map_key]
  split_ifs with hmem
  · exact hU
  · simp [List.nodup_append, hU, hmem]

lemma upsertEntry_filter_ne (l : List HabitEntry) (uid hid : Nat) (d : Int) (c : Bool)
    {uid' hid' : Nat} {d' : Int} (hne : ¬(uid = uid' ∧ hid = hid' ∧ d = d')) :
    (upsertEntry l uid hid d c).filter
        (fun e => e.user_id == uid' && e.date == d' && e.habit_id == hid') =
      l.filter (fun e => e.user_id == uid' && e.date == d' && e.habit_id == hid') := by
  induction l with
  | nil =>
    have hp := matchPred_false ⟨uid, hid, d, c⟩ uid' d' hid'
      (fun hc => hne ⟨hc.1, hc.2.1, hc.2.2⟩)
    simp [upsertEntry, List.filter_cons, hp]
  | cons e rest ih =>
    by_cases h : e.user_id = uid ∧ e.habit_id = hid ∧ e.date = d
    · have hcond : ¬((uid = uid' ∧ d = d') ∧ hid = hid') :=
        fun hc => hne ⟨hc.1.1, hc.2, hc.1.2⟩
      simp [upsertEntry, h, List.filter_cons, hcond]
    · simp only [upsertEntry, if_neg h, List.filter_cons, ih]

lemma dayCompleted_upsert_ne (l : List HabitEntry) (uid hid : Nat) (d : Int) (c : Bool)
    {uid' hid' : Nat} {d' : Int} (hne : ¬(uid = uid' ∧ hid = hid' ∧ d = d')) :
    dayCompleted (upsertEntry l uid hid d c) uid' hid' d' = dayCompleted l uid' hid' d' := by
  unfold dayCompleted lastEntryFor
  rw [upsertEntry_filter_ne l uid hid d c hne]

lemma dayCompleted_cons_of_false (e : HabitEntry) (l : List HabitEntry)
    (uid hid : Nat) (d : Int)
    (hp : (e.user_id == uid && e.date == d && e.habit_id == hid) = false) :
    dayCompleted (e :: l) uid hid d = dayCompleted l uid hid d := by
  unfold dayCompleted lastEntryFor
  rw [List.filter_cons, hp]
  simp

lemma dayCompleted_upsert_self (l : List HabitEntry) (uid hid : Nat) (d : Int) (c : Bool)
    (hU : (l.map entryKey).Nodup) :
    dayCompleted (upsertEntry l uid hid d c) uid hid d = c := by
  induction l with
  | nil =>
    simp [upsertEntry, dayCompleted, lastEntryFor, List.filter_cons]
  | cons e rest ih =>
    by_cases h : e.user_id = uid ∧ e.habit_id = hid ∧ e.date = d
    · have hrest : rest.filter
          (fun e => e.user_id == uid && e.date == d && e.habit_id == hid) = [] := by
        rw [List.filter_eq_nil_iff]
        intro x hx hpx
        have hxk : entryKey x = (uid, hid, d) := by
          rw [matchPred_iff] at hpx
          exact (entryKey_eq_iff x uid hid d).2 ⟨hpx.1, hpx.2.2, hpx.2.1⟩
        have hek : entryKey e = (uid, hid, d) := (entryKey_eq_iff e uid hid d).2 h
        have : entryKey e ∈ rest.map entryKey :=
          hek ▸ hxk ▸ List.mem_map_of_mem entryKey hx
        exact (List.nodup_cons.mp (by simpa using hU)).1 this
      have hp2 : (({ e with completed := c } : HabitEntry).user_id == uid &&
          ({ e with completed := c } : HabitEntry).date == d &&
          ({ e with completed := c } : HabitEntry).habit_id == hid) = true :=
        (matchPred_iff _ uid d hid).2 ⟨h.1, h.2.2, h.2.1⟩
      simp [upsertEntry, h, dayCompleted, lastEntryFor, List.filter_cons, hp2, hrest]
    · have hU' : (rest.map entryKey).Nodup := (List.nodup_cons.mp (by simpa using hU)).2
      have hp := matchPred_false e uid d hid h
      have hup : upsertEntry (e :: rest) uid hid d c = e :: upsertEntry rest uid hid d c := by
        simp [upsertEntry, h]
      rw [hup, dayCompleted_cons_of_false e _ uid hid d hp]
      exact ih hU'

lemma saveLoop_dayCompleted (uid : Nat) (d : Int) (m : Completions)
    (habits : List Habit) (l : List HabitEntry) (n : Nat) (hid : Nat)
    (hU : (l.map entryKey).Nodup) :
    dayCompleted (saveLoop uid d m habits (l, n)).1 uid hid d =
      if ∃ h ∈ habits, h.id = hid then desiredCompleted m hid
      else dayCompleted l uid hid d := by
  induction habits generalizing l n with
  | nil => simp [saveLoop_nil]
  | cons hb hs ih =>
    rw [saveLoop_cons]
    have hU1 := upsertEntry_nodup l uid hb.id d (desiredCompleted m hb.id) hU
    rw [ih _ _ hU1]
    by_cases hmem : ∃ h ∈ hs, h.id = hid
    · have hmem2 : ∃ h ∈ hb :: hs, h.id = hid := by
        obtain ⟨h, hh, hh2⟩ := hmem
        exact ⟨h, List.mem_cons_of_mem _ hh, hh2⟩
      simp [hmem, hmem2]
    · by_cases heq : hb.id = hid
      · subst heq
        have hmem2 : ∃ h ∈ hb :: hs, h.id = hb.id := ⟨hb, List.mem_cons_self _ _, rfl⟩
        simp only [hmem, if_false, hmem2, if_true, if_pos hmem2, if_neg hmem]
        exact dayCompleted_upsert_self l uid hb.id d (desiredCompleted m hb.id) hU
      · have hmem2 : ¬ ∃ h ∈ hb :: hs, h.id = hid := by
          rintro ⟨h, hh, hh2⟩
          rcases List.mem_cons.mp hh with rfl | hh3
          · exact heq hh2
          · exact hmem ⟨h, hh3, hh2⟩
        simp only [if_neg hmem, if_neg hmem2]
        exact dayCompleted_upsert_ne l uid hb.id d (desiredCompleted m hb.id)
          (fun hc => heq hc.2.1)

/-! ### C3 -/

lemma dictGet_append_single_ne (m : Completions) (k' : PyKey) (v : PyVal) (k : PyKey)
    (h : k' ≠ k) : dictGet (m ++ [(k', v)]) k = dictGet m k := by
  unfold dictGet
  rw [List.find?_append]
  cases hf : m.find? (fun p => p.1 == k) with
  | some p => simp [hf]
  | none => simp [hf, h]

lemma desiredCompleted_append_ne (m : Completions) (k : PyKey) (v : PyVal) (hid : Nat)
    (h1 : k ≠ .kStr (toString hid)) (h2 : k ≠ .kInt (hid : Int)) :
    desiredCompleted (m ++ [(k, v)]) hid = desiredCompleted m hid := by
  unfold desiredCompleted
  rw [dictGet_append_single_ne m k v _ h1, dictGet_append_single_ne m k v _ h2]

lemma save_read_formula (db : DB) (uid : Nat) (d : Int) (m : Completions)
    (hU : UniqLedger db) :
    get_habits (saveHabitsCore db uid d m).1 uid d =
      (sortHabits db.habits).map (fun h => ⟨h.id, h.name, desiredCompleted m h.id⟩) := by
  rw [saveHabitsCore_fst, get_habits_eq_map]
  apply List.map_congr_left
  intro h hh
  have hd := saveLoop_dayCompleted uid d m (sortHabits db.habits) db.entries 0 h.id hU
  rw [if_pos ⟨h, hh, rfl⟩] at hd
  simpa using congrArg (fun b => (⟨h.id, h.name, b⟩ : HabitStatus)) hd

/-- C3: saving a completions mapping and immediately reading the same
user and date reproduces exactly the submitted states, projected onto
the catalog (absent or falsy values read back as not completed), and
appending a key that matches no catalog habit in either encoded form
leaves the read-back result unchanged. -/
theorem save_then_read_roundtrip (db : DB) (uid : Nat) (d : Int) (m : Completions)
    (hU : UniqLedger db) :
    get_habits (saveHabitsCore db uid d m).1 uid d =
      (sortHabits db.habits).map (fun h => ⟨h.id, h.name, desiredCompleted m h.id⟩) ∧
    ∀ (k : PyKey) (v : PyVal),
      (∀ h ∈ db.habits, k ≠ .kStr (toString h.id) ∧ k ≠ .kInt (h.id : Int)) →
      get_habits (saveHabitsCore db uid d (m ++ [(k, v)])).1 uid d =
        get_habits (saveHabitsCore db uid d m).1 uid d := by
  refine ⟨save_read_formula db uid d m hU, ?_⟩
  intro k v hk
  rw [save_read_formula db uid d m hU, save_read_formula db uid d (m ++ [(k, v)]) hU]
  apply List.map_congr_left
  intro h hh
  have hh2 : h ∈ db.habits := (sortHabits_perm db.habits).mem_iff.mp hh
  rw [desiredCompleted_append_ne m k v h.id (hk h hh2).1 (hk h hh2).2]

theorem save_then_read_roundtrip_witness :
    UniqLedger sampleDB ∧
    (get_habits (saveHabitsCore sampleDB 1 100 sampleComps).1 1 100 =
      (sortHabits sampleDB.habits).map
        (fun h => ⟨h.id, h.name, desiredCompleted sampleComps h.id⟩) ∧
     ∀ (k : PyKey) (v : PyVal),
       (∀ h ∈ sampleDB.habits, k ≠ .kStr (toString h.id) ∧ k ≠ .kInt (h.id : Int)) →
       get_habits (saveHabitsCore sampleDB 1 100 (sampleComps ++ [(k, v)])).1 1 100 =
         get_habits (saveHabitsCore sampleDB 1 100 sampleComps).1 1 100) :=
  ⟨by decide, save_then_read_roundtrip sampleDB 1 100 sampleComps (by decide)⟩

/-! ### C4 -/

lemma saveLoop_count (uid : Nat) (d : Int) (m : Completions)
    (habits : List Habit) (l : List HabitEntry) (n : Nat) :
    (saveLoop uid d m habits (l, n)).2 =
      n + habits.countP (fun h => desiredCompleted m h.id) := by
  induction habits generalizing l n with
  | nil => simp [saveLoop_nil]
  | cons hb hs ih =>
    rw [saveLoop_cons, ih]
    cases hdc : desiredCompleted m hb.id <;> (simp [List.countP_cons, hdc]; try omega)

lemma sortHabits_eq_nil_iff (habits : List Habit) :
    sortHabits habits = [] ↔ habits = [] := by
  constructor
  · intro h0
    have := sortHabits_length habits
    rw [h0] at this
    exact List.length_eq_zero.mp this.symm
  · intro h0
    rw [h0]
    exact (sortHabits_perm []).eq_nil

lemma saveHabitsCore_pct (db : DB) (uid : Nat) (d : Int) (m : Completions) :
    (saveHabitsCore db uid d m).2 =
      if db.habits = [] then 0
      else ((db.habits.countP (fun h => desiredCompleted m h.id) : ℚ) /
        (db.habits.length : ℚ) * 100) := by
  rw [saveHabitsCore_snd, saveLoop_count]
  by_cases hnil : db.habits = []
  · have hs : sortHabits db.habits = [] := (sortHabits_eq_nil_iff db.habits).2 hnil
    rw [hs, if_pos hnil]
    simp
  · have hs : ¬ sortHabits db.habits = [] :=
      fun h0 => hnil ((sortHabits_eq_nil_iff db.habits).1 h0)
    rw [if_neg hnil, if_neg (by simpa [List.isEmpty_iff] using hs)]
    rw [(sortHabits_perm db.habits).countP_eq, sortHabits_length, Nat.zero_add]

/-- C4: the percentage returned by a save is the number of catalog
habits whose desired state (string or native key lookup, absent or
falsy meaning not completed) is completed, divided by the catalog size,
times 100, with 0 for an empty catalog; and saving an empty mapping
yields percentage 0 and reads back every habit as not completed. -/
theorem save_percentage_formula (db : DB) (uid : Nat) (d : Int) (m : Completions)
    (hU : UniqLedger db) :
    (saveHabitsCore db uid d m).2 =
      (if db.habits = [] then 0
       else ((db.habits.countP (fun h => desiredCompleted m h.id) : ℚ) /
         (db.habits.length : ℚ) * 100)) ∧
    (saveHabitsCore db uid d ([] : Completions)).2 = 0 ∧
    ∀ st ∈ get_habits (saveHabitsCore db uid d ([] : Completions)).1 uid d,
      st.completed = false := by
  refine ⟨saveHabitsCore_pct db uid d m, ?_, ?_⟩
  · rw [saveHabitsCore_pct]
    have hcount : db.habits.countP (fun h => desiredCompleted ([] : Completions) h.id) = 0 := by
      simp [List.countP_eq_zero]
      intro h hh
      rfl
    rw [hcount]
    by_cases hnil : db.habits = [] <;> simp [hnil]
  · rw [save_read_formula db uid d ([] : Completions) hU]
    intro st hst
    rw [List.mem_map] at hst
    obtain ⟨h, _, rfl⟩ := hst
    rfl

theorem save_percentage_formula_witness :
    UniqLedger sampleDB ∧
    ((saveHabitsCore sampleDB 1 100 sampleComps).2 =
      (if sampleDB.habits = [] then 0
       else ((sampleDB.habits.countP (fun h => desiredCompleted sampleComps h.id) : ℚ) /
         (sampleDB.habits.length : ℚ) * 100)) ∧
     (saveHabitsCore sampleDB 1 100 ([] : Completions)).2 = 0 ∧
     ∀ st ∈ get_habits (saveHabitsCore sampleDB 1 100 ([] : Completions)).1 1 100,
       st.completed = false) :=
  ⟨by decide, save_percentage_formula sampleDB 1 100 sampleComps (by decide)⟩

/-! ### C10 -/

lemma upsertEntry_filter_other (l : List HabitEntry) (uid hid : Nat) (d : Int) (c : Bool) :
    (upsertEntry l uid hid d c).filter (fun e => !(e.user_id == uid && e.date == d)) =
      l.filter (fun e => !(e.user_id == uid && e.date == d)) := by
  induction l with
  | nil => simp [upsertEntry, List.filter_cons]
  | cons e rest ih =>
    by_cases h : e.user_id = uid ∧ e.habit_id = hid ∧ e.date = d
    · simp [upsertEntry, h, List.filter_cons, h.1, h.2.2]
    · simp only [upsertEntry, if_neg h, List.filter_cons, ih]

lemma saveLoop_filter_other (uid : Nat) (d : Int) (m : Completions)
    (habits : List Habit) (l : List HabitEntry) (n : Nat) :
    ((saveLoop uid d m habits (l, n)).1).filter
        (fun e => !(e.user_id == uid && e.date == d)) =
      l.filter (fun e => !(e.user_id == uid && e.date == d)) := by
  induction habits generalizing l n with
  | nil => simp [saveLoop_nil]
  | cons hb hs ih =>
    rw [saveLoop_cons, ih, upsertEntry_filter_other]

/-- C10: a save for a given user and date changes nothing else — the
habit catalog is untouched and the sublist of ledger entries belonging
to a different user or a different date is exactly what it was. -/
theorem save_touches_only_user_and_date (db : DB) (uid : Nat) (d : Int) (m : Completions) :
    (saveHabitsCore db uid d m).1.habits = db.habits ∧
    (saveHabitsCore db uid d m).1.entries.filter
        (fun e => !(e.user_id == uid && e.date == d)) =
      db.entries.filter (fun e => !(e.user_id == uid && e.date == d)) := by
  rw [saveHabitsCore_fst]
  exact ⟨rfl, saveLoop_filter_other uid d m (sortHabits db.habits) db.entries 0⟩

/-! ### C8 -/

/-- The query `HabitEntry.query.filter_by(user_id=..., habit_id=..., date=...).first()`:
the first ledger row matching the triple. -/
def firstEntryFor (l : List HabitEntry) (uid hid : Nat) (d : Int) : Option HabitEntry :=
  l.find? (fun e => e.user_id == uid && e.habit_id == hid && e.date == d)

lemma firstPred_iff (e : HabitEntry) (uid hid : Nat) (d : Int) :
    (e.user_id == uid && e.habit_id == hid && e.date == d) = true ↔
      e.user_id = uid ∧ e.habit_id = hid ∧ e.date = d := by
  simp [Bool.and_eq_true, and_assoc]

lemma firstEntryFor_cons_pos (a : HabitEntry) (l : List HabitEntry) (uid hid : Nat)
    (d : Int) (h : a.user_id = uid ∧ a.habit_id = hid ∧ a.date = d) :
    firstEntryFor (a :: l) uid hid d = some a := by
  simp only [firstEntryFor, List.find?_cons, (firstPred_iff a uid hid d).2 h]

lemma firstEntryFor_cons_neg (a : HabitEntry) (l : List HabitEntry) (uid hid : Nat)
    (d : Int) (h : ¬(a.user_id = uid ∧ a.habit_id = hid ∧ a.date = d)) :
    firstEntryFor (a :: l) uid hid d = firstEntryFor l uid hid d := by
  have hp : (a.user_id == uid && a.habit_id == hid && a.date == d) = false :=
    Bool.eq_false_iff.mpr (fun hq => h ((firstPred_iff a uid hid d).1 hq))
  simp only [firstEntryFor, List.find?_cons, hp]

lemma upsertEntry_eq_of_first (l : List HabitEntry) (uid hid : Nat) (d : Int) (c : Bool)
    (e : HabitEntry) (hf : firstEntryFor l uid hid d = some e) (hc : e.completed = c) :
    upsertEntry l uid hid d c = l := by
  induction l with
  | nil => cases hf
  | cons a rest ih =>
    by_cases h : a.user_id = uid ∧ a.habit_id = hid ∧ a.date = d
    · rw [firstEntryFor_cons_pos a rest uid hid d h] at hf
      injection hf with hf
      subst hf
      simp only [upsertEntry, if_pos h]
      have hae : ({ a with completed := c } : HabitEntry) = a := by rw [← hc]
      rw [hae]
    · rw [firstEntryFor_cons_neg a rest uid hid d h] at hf
      simp only [upsertEntry, if_neg h]
      rw [ih hf]

lemma firstEntryFor_upsert_self (l : List HabitEntry) (uid hid : Nat) (d : Int) (c : Bool) :
    ∃ e, firstEntryFor (upsertEntry l uid hid d c) uid hid d = some e ∧
      e.completed = c := by
  induction l with
  | nil =>
    refine ⟨⟨uid, hid, d, c⟩, ?_, rfl⟩
    exact firstEntryFor_cons_pos _ _ uid hid d ⟨rfl, rfl, rfl⟩
  | cons a rest ih =>
    by_cases h : a.user_id = uid ∧ a.habit_id = hid ∧ a.date = d
    · refine ⟨{ a with completed := c }, ?_, rfl⟩
      simp only [upsertEntry, if_pos h]
      exact firstEntryFor_cons_pos _ _ uid hid d ⟨h.1, h.2.1, h.2.2⟩
    · obtain ⟨e, he, hec⟩ := ih
      refine ⟨e, ?_, hec⟩
      simp only [upsertEntry, if_neg h]
      rw [firstEntryFor_cons_neg a _ uid hid d h]
      exact he

lemma firstEntryFor_upsert_ne (l : List HabitEntry) (uid hid hid' : Nat) (d : Int)
    (c : Bool) (hne : hid ≠ hid') :
    firstEntryFor (upsertEntry l uid hid d c) uid hid' d = firstEntryFor l uid hid' d := by
  induction l with
  | nil =>
    show firstEntryFor [⟨uid, hid, d, c⟩] uid hid' d = firstEntryFor [] uid hid' d
    rw [firstEntryFor_cons_neg _ _ uid hid' d (fun hq => hne hq.2.1)]
  | cons a rest ih =>
    by_cases h : a.user_id = uid ∧ a.habit_id = hid ∧ a.date = d
    · have hq : ¬(a.user_id = uid ∧ a.habit_id = hid' ∧ a.date = d) :=
        fun hc => hne (by rw [← h.2.1, hc.2.1])
      simp only [upsertEntry, if_pos h]
      rw [firstEntryFor_cons_neg { a with completed := c } rest uid hid' d hq,
        firstEntryFor_cons_neg a rest uid hid' d hq]
    · simp only [upsertEntry, if_neg h]
      by_cases hpa : a.user_id = uid ∧ a.habit_id = hid' ∧ a.date = d
      · rw [firstEntryFor_cons_pos _ _ uid hid' d hpa,
          firstEntryFor_cons_pos a rest uid hid' d hpa]
      · rw [firstEntryFor_cons_neg _ _ uid hid' d hpa,
          firstEntryFor_cons_neg a rest uid hid' d hpa, ih]

lemma saveLoop_first_preserve (uid : Nat) (d : Int) (m : Completions)
    (hs : List Habit) (l : List HabitEntry) (n : Nat) (hid : Nat)
    (hnot : ∀ h ∈ hs, h.id ≠ hid) :
    firstEntryFor (saveLoop uid d m hs (l, n)).1 uid hid d = firstEntryFor l uid hid d := by
  induction hs generalizing l n with
  | nil => rfl
  | cons hb tl ih =>
    rw [saveLoop_cons]
    rw [ih _ _ (fun h hh => hnot h (List.mem_cons_of_mem _ hh))]
    exact firstEntryFor_upsert_ne l uid hb.id hid d _ (hnot hb (List.mem_cons_self _ _))

lemma saveLoop_first_invariant (uid : Nat) (d : Int) (m : Completions)
    (habits : List Habit) (l : List HabitEntry) (n : Nat) :
    ∀ h ∈ habits, ∃ e,
      firstEntryFor (saveLoop uid d m habits (l, n)).1 uid h.id d = some e ∧
      e.completed = desiredCompleted m h.id := by
  induction habits generalizing l n with
  | nil => intro h hh; cases hh
  | cons hb hs ih =>
    intro h hh
    rw [saveLoop_cons]
    rcases List.mem_cons.mp hh with rfl | hh2
    · by_cases hmem : ∃ h2 ∈ hs, h2.id = h.id
      · obtain ⟨h2, hm2, hid2⟩ := hmem
        obtain ⟨e, he, hec⟩ := ih
          (upsertEntry l uid h.id d (desiredCompleted m h.id))
          (n + if desiredCompleted m h.id then 1 else 0) h2 hm2
        rw [hid2] at he hec
        exact ⟨e, he, hec⟩
      · obtain ⟨e, he, hec⟩ := firstEntryFor_upsert_self l uid h.id d (desiredCompleted m h.id)
        refine ⟨e, ?_, hec⟩
        rw [saveLoop_first_preserve uid d m hs _ _ h.id
          (fun h2 hh2 hq => hmem ⟨h2, hh2, hq⟩)]
        exact he
    · exact ih _ _ h hh2

lemma saveLoop_id_of_invariant (uid : Nat) (d : Int) (m : Completions)
    (habits : List Habit) (L : List HabitEntry) (n : Nat)
    (hinv : ∀ h ∈ habits, ∃ e, firstEntryFor L uid h.id d = some e ∧
      e.completed = desiredCompleted m h.id) :
    saveLoop uid d m habits (L, n) =
      (L, n + habits.countP (fun h => desiredCompleted m h.id)) := by
  induction habits generalizing n with
  | nil => simp [saveLoop_nil]
  | cons hb hs ih =>
    rw [saveLoop_cons]
    obtain ⟨e, he, hec⟩ := hinv hb (List.mem_cons_self _ _)
    rw [upsertEntry_eq_of_first L uid hb.id d _ e he hec]
    rw [ih _ (fun h hh => hinv h (List.mem_cons_of_mem _ hh))]
    cases hdc : desiredCompleted m hb.id <;> (simp [List.countP_cons, hdc]; try omega)

/-- C8: saving the same user, date and completions twice in a row
leaves the ledger exactly as a single save does, and both calls return
the same percentage — no duplicate rows are created. -/
theorem save_idempotent (db : DB) (uid : Nat) (d : Int) (m : Completions) :
    saveHabitsCore (saveHabitsCore db uid d m).1 uid d m = saveHabitsCore db uid d m := by
  have hinv := saveLoop_first_invariant uid d m (sortHabits db.habits) db.entries 0
  have hrun2 := saveLoop_id_of_invariant uid d m (sortHabits db.habits)
    ((saveLoop uid d m (sortHabits db.habits) (db.entries, 0)).1) 0 hinv
  rw [saveHabitsCore_fst]
  apply Prod.ext
  · show DB.mk db.habits _ = _
    rw [saveHabitsCore_fst]
    show DB.mk db.habits (saveLoop uid d m (sortHabits db.habits) _).1 = _
    rw [hrun2]
  · show (if (sortHabits db.habits).isEmpty then (0 : ℚ)
        else ((saveLoop uid d m (sortHabits db.habits)
          ((saveLoop uid d m (sortHabits db.habits) (db.entries, 0)).1, 0)).2 : ℚ) /
          ((sortHabits db.habits).length : ℚ) * 100) = _
    rw [hrun2, saveHabitsCore_snd, saveLoop_count]

/-! ### C9 -/

/-- A mapping holding a falsy value under the string form of a habit id
and a truthy value under its native int form. -/
def mixedComps : Completions := [(.kStr "5", .vBool false), (.kInt 5, .vInt 3)]

/-- C9: the desired state of a habit is the disjunction of the
truthiness of the value under the string-encoded id and of the value
under the native id — in particular a falsy value under the string key
never masks a truthy value under the native key. -/
theorem desired_state_is_disjunction_of_key_forms (m : Completions) (hid : Nat) :
    desiredCompleted m hid =
      (truthy (dictGet m (.kStr (toString hid))) ||
       truthy (dictGet m (.kInt (hid : Int)))) ∧
    (truthy (dictGet m (.kStr (toString hid))) = false →
     truthy (dictGet m (.kInt (hid : Int))) = true →
     desiredCompleted m hid = true) := by
  have hbase : desiredCompleted m hid =
      (truthy (dictGet m (.kStr (toString hid))) ||
       truthy (dictGet m (.kInt (hid : Int)))) := by
    unfold desiredCompleted pyOr
    cases h : truthy (dictGet m (.kStr (toString hid))) <;> simp [h]
  refine ⟨hbase, fun h1 h2 => ?_⟩
  rw [hbase, h1, h2]
  rfl

theorem desired_state_is_disjunction_of_key_forms_witness :
    truthy (dictGet mixedComps (.kStr (toString 5))) = false ∧
    truthy (dictGet mixedComps (.kInt ((5 : Nat) : Int))) = true ∧
    desiredCompleted mixedComps 5 = true :=
  ⟨by decide, by decide,
   (desired_state_is_disjunction_of_key_forms mixedComps 5).2 (by decide) (by decide)⟩

/-! ### The progress day loop in closed form -/

lemma foldl_dayStep (entries : List HabitEntry) (uid : Nat) (L : List Int)
    (stats : List Stat) :
    L.foldl (dayStep entries uid) stats = stats.map fun st =>
      { st with
        completed_days :=
          st.completed_days + L.countP (fun d => dayCompleted entries uid st.id d)
        total_days := st.total_days + L.length } := by
  induction L generalizing stats with
  | nil =>
    simp only [List.foldl_nil, List.countP_nil, List.length_nil, Nat.add_zero]
    exact (List.map_id' stats).symm
  | cons d0 L ih =>
    rw [List.foldl_cons, ih]
    unfold dayStep
    rw [List.map_map]
    apply List.map_congr_left
    intro st _
    cases h : dayCompleted entries uid st.id d0 <;>
      simp [List.countP_cons, h, Function.comp] <;> omega

lemma progressLoop_closed (db : DB) (uid : Nat) (s e : Int) :
    progressLoop db uid s e = (sortHabits db.habits).map fun h =>
      ⟨h.id, h.name,
       (dateRange s e).countP (fun d => dayCompleted db.entries uid h.id d),
       (dateRange s e).length, 0⟩ := by
  unfold progressLoop initStats
  rw [foldl_dayStep, List.map_map]
  apply List.map_congr_left
  intro h _
  simp [Function.comp]

lemma mem_finalize_loop (db : DB) (uid : Nat) (s e : Int) (st : Stat)
    (hst : st ∈ finalizeStats (progressLoop db uid s e)) :
    st.total_days = (dateRange s e).length ∧
    st.completed_days =
      (dateRange s e).countP (fun d => dayCompleted db.entries uid st.id d) ∧
    st.percentage = (if st.total_days > 0 then
      round2 ((st.completed_days : ℚ) / (st.total_days : ℚ) * 100) else 0) := by
  unfold finalizeStats at hst
  rw [progressLoop_closed, List.map_map] at hst
  rw [List.mem_map] at hst
  obtain ⟨h, _, rfl⟩ := hst
  exact ⟨rfl, rfl, rfl⟩

lemma dateRange_length (s e : Int) : (dateRange s e).length = (e + 1 - s).toNat := by
  unfold dateRange
  rw [List.length_map, List.length_range]

lemma progressWindow_ok (db : DB) (uid : Nat) (period : String) (endD : Int)
    (res : ProgressResult) (h : progressWindow db uid period endD = .ok res) :
    (period = "weekly" ∧ res = ⟨endD - 6, endD, period,
        finalizeStats (progressLoop db uid (endD - 6) endD)⟩) ∨
    (period = "monthly" ∧ res = ⟨endD - 29, endD, period,
        finalizeStats (progressLoop db uid (endD - 29) endD)⟩) := by
  unfold progressWindow at h
  split_ifs at h with h1 h2
  · left
    refine ⟨h1, ?_⟩
    injection h with h
    exact h.symm
  · right
    refine ⟨h2, ?_⟩
    injection h with h
    exact h.symm

lemma progress_ok_shape (db : DB) (uid : Nat) (req : ProgressReq) (today : Int)
    (res : ProgressResult) (h : progress db uid req today = .ok res) :
    ∃ endD, progressWindow db uid ((req.period.getD "weekly").toLower) endD = .ok res := by
  unfold progress at h
  cases hd : req.endDateStr with
  | none =>
    rw [hd] at h
    dsimp only at h
    exact ⟨today, h⟩
  | some s =>
    rw [hd] at h
    dsimp only at h
    by_cases hs : s = ""
    · rw [if_pos hs] at h
      exact ⟨today, h⟩
    · rw [if_neg hs] at h
      cases hp : parseDate s with
      | none => rw [hp] at h; cases h
      | some dt => rw [hp] at h; exact ⟨dt.toDays, h⟩

/-! ### C5 -/

instance {α β : Type} [DecidableEq α] [DecidableEq β] : DecidableEq (Except α β) :=
  fun a b =>
    match a, b with
    | .error x, .error y =>
      if h : x = y then .isTrue (by rw [h])
      else .isFalse (by intro hc; injection hc with h2; exact h h2)
    | .ok x, .ok y =>
      if h : x = y then .isTrue (by rw [h])
      else .isFalse (by intro hc; injection hc with h2; exact h h2)
    | .error _, .ok _ => .isFalse (by intro hc; cases hc)
    | .ok _, .error _ => .isFalse (by intro hc; cases hc)

/-- A concrete weekly aggregation request. -/
def sampleReq : ProgressReq := ⟨some "weekly", none⟩

/-- The result of aggregating `sampleDB` for user 1 over the weekly
window ending on day 106. -/
def sampleRes : ProgressResult :=
  ⟨100, 106, "weekly",
   [⟨1, "Read", 1, 7, (1429 : ℚ) / 100⟩, ⟨2, "Walk", 0, 7, 0⟩]⟩

/-- C5: a successful aggregation resolves the window start as
end − 6 days for a weekly period and end − 29 days for a monthly one,
and reports total_days = 7 (respectively 30) for every habit; within a
single call total_days is identical across all habits. -/
theorem aggregate_window_and_total_days (db : DB) (uid : Nat) (req : ProgressReq)
    (today : Int) (res : ProgressResult)
    (hres : progress db uid req today = .ok res) :
    ((req.period.getD "weekly").toLower = "weekly" →
      res.start_date = res.end_date - 6 ∧ ∀ st ∈ res.habits, st.total_days = 7) ∧
    ((req.period.getD "weekly").toLower = "monthly" →
      res.start_date = res.end_date - 29 ∧ ∀ st ∈ res.habits, st.total_days = 30) ∧
    ∀ st ∈ res.habits, ∀ st2 ∈ res.habits, st.total_days = st2.total_days := by
  obtain ⟨endD, hw⟩ := progress_ok_shape db uid req today res hres
  rcases progressWindow_ok db uid _ endD res hw with ⟨hper, rfl⟩ | ⟨hper, rfl⟩
  · have htot : ∀ st ∈ finalizeStats (progressLoop db uid (endD - 6) endD),
        st.total_days = 7 := by
      intro st hst
      have h1 := (mem_finalize_loop db uid (endD - 6) endD st hst).1
      rw [dateRange_length] at h1
      omega
    refine ⟨fun _ => ⟨rfl, htot⟩,
      fun hm => absurd (hper.symm.trans hm) (by decide), ?_⟩
    intro st hst st2 hst2
    rw [htot st hst, htot st2 hst2]
  · have htot : ∀ st ∈ finalizeStats (progressLoop db uid (endD - 29) endD),
        st.total_days = 30 := by
      intro st hst
      have h1 := (mem_finalize_loop db uid (endD - 29) endD st hst).1
      rw [dateRange_length] at h1
      omega
    refine ⟨fun hm => absurd (hper.symm.trans hm) (by decide),
      fun _ => ⟨rfl, htot⟩, ?_⟩
    intro st hst st2 hst2
    rw [htot st hst, htot st2 hst2]

set_option maxRecDepth 100000 in
theorem aggregate_window_and_total_days_witness :
    progress sampleDB 1 sampleReq 106 = .ok sampleRes ∧
    (((sampleReq.period.getD "weekly").toLower = "weekly" →
      sampleRes.start_date = sampleRes.end_date - 6 ∧
      ∀ st ∈ sampleRes.habits, st.total_days = 7) ∧
     ((sampleReq.period.getD "weekly").toLower = "monthly" →
      sampleRes.start_date = sampleRes.end_date - 29 ∧
      ∀ st ∈ sampleRes.habits, st.total_days = 30) ∧
     ∀ st ∈ sampleRes.habits, ∀ st2 ∈ sampleRes.habits,
       st.total_days = st2.total_days) :=
  ⟨by with_unfolding_all decide,
   aggregate_window_and_total_days sampleDB 1 sampleReq 106 sampleRes
     (by with_unfolding_all decide)⟩

/-! ### C6 -/

lemma dayCompleted_eq_any (entries : List HabitEntry)
    (hU : (entries.map entryKey).Nodup) (uid hid : Nat) (d : Int) :
    dayCompleted entries uid hid d = entries.any (fun e =>
      e.user_id == uid && e.habit_id == hid && e.date == d && e.completed) := by
  have h1 := dayCompleted_true_iff hU uid hid d
  have h2 : entries.any (fun e =>
      e.user_id == uid && e.habit_id == hid && e.date == d && e.completed) = true ↔
      ∃ e ∈ entries, e.user_id = uid ∧ e.habit_id = hid ∧ e.date = d ∧
        e.completed = true := by
    rw [List.any_eq_true]
    constructor
    · rintro ⟨e, he, hp⟩
      simp only [Bool.and_eq_true, beq_iff_eq] at hp
      exact ⟨e, he, hp.1.1.1, hp.1.1.2, hp.1.2, hp.2⟩
    · rintro ⟨e, he, hp1, hp2, hp3, hp4⟩
      exact ⟨e, he, by simp [hp1, hp2, hp3, hp4]⟩
  rcases Bool.eq_false_or_eq_true (dayCompleted entries uid hid d) with hd1 | hd0
  · rw [hd1]
    exact (h2.2 (h1.1 hd1)).symm
  · rw [hd0]
    cases ha : entries.any (fun e =>
        e.user_id == uid && e.habit_id == hid && e.date == d && e.completed) with
    | false => rfl
    | true =>
      have hcontra := h1.2 (h2.1 ha)
      rw [hd0] at hcontra
      cases hcontra

/-- C6: in a successful aggregation each habit's completed_days counts
exactly the window dates for which the ledger holds a completed entry
for (user, habit, date), total_days is the window length, and
percentage is completed_days / total_days × 100 rounded to two decimal
places (0 when total_days is 0). -/
theorem aggregate_counts_and_percentage (db : DB) (uid : Nat) (req : ProgressReq)
    (today : Int) (res : ProgressResult) (hU : UniqLedger db)
    (hres : progress db uid req today = .ok res) :
    ∀ st ∈ res.habits,
      st.completed_days = (dateRange res.start_date res.end_date).countP
        (fun d => db.entries.any (fun e =>
          e.user_id == uid && e.habit_id == st.id && e.date == d && e.completed)) ∧
      st.total_days = (dateRange res.start_date res.end_date).length ∧
      st.percentage = (if st.total_days > 0 then
        round2 ((st.completed_days : ℚ) / (st.total_days : ℚ) * 100) else 0) := by
  obtain ⟨endD, hw⟩ := progress_ok_shape db uid req today res hres
  rcases progressWindow_ok db uid _ endD res hw with ⟨hper, rfl⟩ | ⟨hper, rfl⟩
  all_goals
    intro st hst
    obtain ⟨ht, hc, hp⟩ := mem_finalize_loop _ _ _ _ st hst
    refine ⟨?_, ht, hp⟩
    rw [hc]
    apply List.countP_congr
    intro d _
    rw [dayCompleted_eq_any db.entries hU uid st.id d]

set_option maxRecDepth 100000 in
theorem aggregate_counts_and_percentage_witness :
    UniqLedger sampleDB ∧
    progress sampleDB 1 sampleReq 106 = .ok sampleRes ∧
    ∀ st ∈ sampleRes.habits,
      st.completed_days = (dateRange sampleRes.start_date sampleRes.end_date).countP
        (fun d => sampleDB.entries.any (fun e =>
          e.user_id == 1 && e.habit_id == st.id && e.date == d && e.completed)) ∧
      st.total_days = (dateRange sampleRes.start_date sampleRes.end_date).length ∧
      st.percentage = (if st.total_days > 0 then
        round2 ((st.completed_days : ℚ) / (st.total_days : ℚ) * 100) else 0) :=
  ⟨by decide, by with_unfolding_all decide,
   aggregate_counts_and_percentage sampleDB 1 sampleReq 106 sampleRes (by decide)
     (by with_unfolding_all decide)⟩

/-! ### C7 -/

lemma progressWindow_error (db : DB) (uid : Nat) (per : String) (endD : Int)
    (h1 : per ≠ "weekly") (h2 : per ≠ "monthly") :
    progressWindow db uid per endD = .error "Period must be weekly or monthly." := by
  unfold progressWindow
  rw [if_neg h1, if_neg h2]

/-- C7: a save request with a missing or malformed date or missing
completions, and an aggregation request with a malformed end date or a
period other than weekly/monthly, fail with a validation error: the
store is returned unchanged and the response is the same whatever the
ledger and catalog contents (no store access influences it); the
aggregation handler performs no write at all by construction. -/
theorem invalid_requests_rejected (db : DB) (uid : Nat) (req : SaveReq)
    (preq : ProgressReq) (today : Int) :
    (saveReqInvalid req = true →
      (save_habits db uid req).2 = db ∧
      (∃ msg, (save_habits db uid req).1 = .error msg) ∧
      ∀ db2 : DB, (save_habits db2 uid req).1 = (save_habits db uid req).1) ∧
    (progressReqInvalid preq = true →
      (∃ msg, progress db uid preq today = .error msg) ∧
      ∀ db2 : DB, progress db2 uid preq today = progress db uid preq today) := by
  constructor
  · intro hinv
    obtain ⟨ds, cs⟩ := req
    cases ds with
    | none => exact ⟨rfl, ⟨_, rfl⟩, fun db2 => rfl⟩
    | some s =>
      cases cs with
      | none => exact ⟨rfl, ⟨_, rfl⟩, fun db2 => rfl⟩
      | some m =>
        simp only [saveReqInvalid, Bool.or_eq_true, beq_iff_eq,
          Option.isNone_iff_eq_none] at hinv
        by_cases hs : s = ""
        · have hsave : ∀ db0 : DB, save_habits db0 uid ⟨some s, some m⟩ =
              (.error "Invalid payload. date and completions are required.", db0) := by
            intro db0
            unfold save_habits
            dsimp only
            rw [if_pos hs]
          exact ⟨by rw [hsave db], ⟨_, by rw [hsave db]⟩,
            fun db2 => by rw [hsave db, hsave db2]⟩
        · have hp : parseDate s = none := hinv.resolve_left hs
          have hsave : ∀ db0 : DB, save_habits db0 uid ⟨some s, some m⟩ =
              (.error "Date must be in YYYY-MM-DD format", db0) := by
            intro db0
            unfold save_habits
            dsimp only
            rw [if_neg hs, hp]
          exact ⟨by rw [hsave db], ⟨_, by rw [hsave db]⟩,
            fun db2 => by rw [hsave db, hsave db2]⟩
  · intro hinv
    obtain ⟨po, eo⟩ := preq
    cases eo with
    | none =>
      simp only [progressReqInvalid, Bool.and_eq_true, bne_iff_ne] at hinv
      have hpw : ∀ db0 : DB, progress db0 uid ⟨po, none⟩ today =
          .error "Period must be weekly or monthly." := by
        intro db0
        unfold progress
        dsimp only
        exact progressWindow_error db0 uid _ today hinv.1 hinv.2
      exact ⟨⟨_, hpw db⟩, fun db2 => by rw [hpw db, hpw db2]⟩
    | some s =>
      simp only [progressReqInvalid, Bool.or_eq_true, Bool.and_eq_true, bne_iff_ne,
        Option.isNone_iff_eq_none] at hinv
      have hpw : ∃ msg, ∀ db0 : DB,
          progress db0 uid ⟨po, some s⟩ today = .error msg := by
        rcases hinv with ⟨hs, hp⟩ | ⟨h1, h2⟩
        · refine ⟨"Date must be in YYYY-MM-DD format", fun db0 => ?_⟩
          unfold progress
          dsimp only
          rw [if_neg hs, hp]
        · by_cases hs : s = ""
          · refine ⟨"Period must be weekly or monthly.", fun db0 => ?_⟩
            unfold progress
            dsimp only
            rw [if_pos hs]
            exact progressWindow_error db0 uid _ today h1 h2
          · cases hdt : parseDate s with
            | none =>
              refine ⟨"Date must be in YYYY-MM-DD format", fun db0 => ?_⟩
              unfold progress
              dsimp only
              rw [if_neg hs, hdt]
            | some dt =>
              refine ⟨"Period must be weekly or monthly.", fun db0 => ?_⟩
              unfold progress
              dsimp only
              rw [if_neg hs, hdt]
              exact progressWindow_error db0 uid _ dt.toDays h1 h2
      obtain ⟨msg, hpw⟩ := hpw
      exact ⟨⟨msg, hpw db⟩, fun db2 => by rw [hpw db, hpw db2]⟩

/-- A save request with a syntactically well-formed payload but a
malformed (out-of-range month) date. -/
def badSaveReq : SaveReq := ⟨some "2024-13-01", some []⟩

/-- An aggregation request with a valid end date but an invalid period. -/
def badProgressReq : ProgressReq := ⟨some "yearly", some "2024-01-07"⟩

set_option maxRecDepth 100000 in
theorem invalid_requests_rejected_witness :
    saveReqInvalid badSaveReq = true ∧
    progressReqInvalid badProgressReq = true ∧
    ((save_habits sampleDB 1 badSaveReq).2 = sampleDB ∧
     (∃ msg, (save_habits sampleDB 1 badSaveReq).1 = .error msg) ∧
     ∀ db2 : DB, (save_habits db2 1 badSaveReq).1 = (save_habits sampleDB 1 badSaveReq).1) ∧
    ((∃ msg, progress sampleDB 1 badProgressReq 0 = .error msg) ∧
     ∀ db2 : DB, progress db2 1 badProgressReq 0 = progress sampleDB 1 badProgressReq 0) :=
  ⟨by with_unfolding_all decide, by with_unfolding_all decide,
   (invalid_requests_rejected sampleDB 1 badSaveReq badProgressReq 0).1
     (by with_unfolding_all decide),
   (invalid_requests_rejected sampleDB 1 badSaveReq badProgressReq 0).2
     (by with_unfolding_all decide)⟩

end HabitTracker
